import Mathlib

/-!
Verification of the comfyui-docker boot reconciliation engine.

This file gives a shallow embedding of the reconciliation logic of the
repository (src/comfyui_helper/{boot,models,nodes}.py and
src/src/comfyui_helper/download.py) and proves or refutes the frozen
claims about it.  External effects (filesystem, subprocesses, the aria2
daemon) are modelled by explicit state values and outcome oracles passed
as arguments; everything else follows the Python control flow line by
line.
-/

namespace ComfyUIDocker

/-! ### Data model (models.py, nodes.py)

A model entry carries a URL, a directory and a filename; the resolved
destination path is COMFYUI_PATH/dir/filename.  The constant root prefix
is common to all entries, so it is dropped and the path is modelled as
the string dir ++ "/" ++ filename.  Python Model.__eq__ and __hash__
compare by this resolved path. -/

structure Model where
  url : String
  dir : String
  filename : String
deriving DecidableEq

def Model.path (m : Model) : String := m.dir ++ "/" ++ m.filename

inductive NodeSource
  | registry
  | git
deriving DecidableEq

/-- Node entry; Python Node.__eq__ and __hash__ compare by name.
Version, git URL and script fields do not enter any claim and are
omitted. -/
structure Node where
  name : String
  source : NodeSource
deriving DecidableEq

/-- Python membership test `node in list` for nodes uses Node.__eq__,
identity by name. -/
def nodeMem (n : Node) (l : List Node) : Bool :=
  l.any (fun m => m.name == n.name)

/-! ### Model dedup (ModelsManager._load_config, models.py:102-117)

The Python loop inserts each parsed model into a `set` keyed by resolved
path, skipping (and logging) an entry whose path is already present.
`loadModelsGo kept cfg` returns the set content listed in insertion
order together with the list of dropped duplicates in encounter order.
The function then returns `list(models)`: an enumeration of the hash
set in an order the language does not specify, i.e. some
content-determined reordering of the first component. -/

def loadModelsGo (kept : List Model) : List Model → List Model × List Model
  | [] => (kept, [])
  | m :: rest =>
    if ∃ k ∈ kept, k.path = m.path then
      let r := loadModelsGo kept rest
      (r.1, m :: r.2)
    else
      loadModelsGo (kept ++ [m]) rest

def loadModelsContent (cfg : List Model) : List Model × List Model :=
  loadModelsGo [] cfg

/-- Spec-words dedup: keep an entry exactly when it is the first
occurrence of its resolved path, in insertion order.  (Modelled from the
spec sentence "duplicates dropped, first occurrence wins, insertion
order preserved"; used to compare against the loop above.) -/
def specFirstOcc : List Model → List Model
  | [] => []
  | m :: rest => m :: specFirstOcc (rest.filter (fun x => !(x.path == m.path)))
termination_by l => l.length
decreasing_by
  simp only [List.length_cons]
  exact Nat.lt_succ_of_le (List.length_filter_le _ _)

/-- Spec-words duplicate log: an entry is a dropped duplicate exactly
when some strictly earlier entry has the same resolved path. -/
def specDupsGo (prior : List Model) : List Model → List Model
  | [] => []
  | m :: rest =>
    if ∃ p ∈ prior, p.path = m.path then
      m :: specDupsGo (prior ++ [m]) rest
    else
      specDupsGo (prior ++ [m]) rest

def specDups (cfg : List Model) : List Model := specDupsGo [] cfg

/-! ### Model queue computation (ModelsManager.init_models, models.py:126-163)

`prev_url_to_models = {model.url: model for model in self.prev_config}`:
a Python dict comprehension keeps the last entry per key. -/

def dictLast (l : List Model) (u : String) : Option Model :=
  (l.filter (fun m => m.url == u)).getLast?

/-- First loop of init_models: walk the current (desired) config,
queueing a move when the URL is in the previous snapshot at a different
path and a download when the URL is absent, skipping URLs already
processed.  Returns (move queue, download queue, processed urls). -/
def loopCurrent (prev : List Model) :
    List Model → List String → List (Model × Model) × List Model × List String
  | [], pr => ([], [], pr)
  | c :: rest, pr =>
    if c.url ∈ pr then loopCurrent prev rest pr
    else
      match dictLast prev c.url with
      | some pm =>
        if pm.path = c.path then loopCurrent prev rest pr
        else
          let r := loopCurrent prev rest (c.url :: pr)
          ((pm, c) :: r.1, r.2.1, r.2.2)
      | none =>
        let r := loopCurrent prev rest (c.url :: pr)
        (r.1, c :: r.2.1, r.2.2)

/-- Second loop of init_models: walk the previous (achieved) snapshot and
queue for removal every model whose URL was not processed and is not in
the current config. -/
def loopPrev (current : List Model) : List Model → List String → List Model
  | [], _ => []
  | p :: rest, pr =>
    if p.url ∈ pr then loopPrev current rest pr
    else if ∃ c ∈ current, c.url = p.url then loopPrev current rest pr
    else p :: loopPrev current rest (p.url :: pr)

structure ModelQueues where
  moveQueue : List (Model × Model)
  downloadQueue : List Model
  removeQueue : List Model
deriving DecidableEq

/-- Queue computation of init_models.  When the previous snapshot is
empty the whole current config becomes the download queue. -/
def initModelQueues (current prev : List Model) : ModelQueues :=
  if prev = [] then ⟨[], current, []⟩
  else
    let r := loopCurrent prev current []
    ⟨r.1, r.2.1, loopPrev current prev r.2.2⟩

/-! ### Model action processing (models.py:165-217)

Action outcomes are supplied by oracles mirroring the Python helpers:
`moveOk` is the truthiness of utils.move_file (None and False are both
falsy and count as failure), `remRes`/`dlRes` return the tri-state
result of Model.remove / Model.download (some true = done,
some false = failure, none = skipped/already exists). -/

def processMoveQueue (moveOk : Model → Model → Bool) (mq : List (Model × Model)) :
    List Model × List Model :=
  mq.foldl
    (fun acc t =>
      if moveOk t.1 t.2 then (acc.1 ++ [t.2], acc.2) else (acc.1, acc.2 ++ [t.1]))
    ([], [])

def processRemoveQueue (remRes : Model → Option Bool) (rq : List Model) :
    List Model × List Model :=
  rq.foldl
    (fun acc m =>
      match remRes m with
      | some true => (acc.1 ++ [m], acc.2)
      | some false => (acc.1, acc.2 ++ [m])
      | none => acc)
    ([], [])

/-- Download phase: a False result is a failure, while both True
(downloaded) and None (already exists) are appended to the downloaded
list (models.py:212-215). -/
def processDownloadQueue (dlRes : Model → Option Bool) (dq : List Model) :
    List Model × List Model :=
  dq.foldl
    (fun acc m =>
      match dlRes m with
      | some false => (acc.1, acc.2 ++ [m])
      | _ => (acc.1 ++ [m], acc.2))
    ([], [])

/-- ModelsManager.init_models: returns none when the current config is
empty, otherwise the 4-tuple (downloaded, removed, moved, failed); the
failed list accumulates across the move, remove and download phases in
that order. -/
def initModels (current prev : List Model) (moveOk : Model → Model → Bool)
    (remRes dlRes : Model → Option Bool) :
    Option (List Model × List Model × List Model × List Model) :=
  if current = [] then none
  else
    let q := initModelQueues current prev
    let mv := processMoveQueue moveOk q.moveQueue
    let rm := processRemoveQueue remRes q.removeQueue
    let dl := processDownloadQueue dlRes q.downloadQueue
    some (dl.1, rm.1, mv.1, mv.2 ++ rm.2 ++ dl.2)

/-- boot.py:247-251: models_successed, the list persisted as the new
achieved snapshot for the models category: the current (desired) config
filtered by Python list membership against the failed list, which uses
Model.__eq__, i.e. resolved-path equality. -/
def modelsSuccessed (current failed : List Model) : List Model :=
  current.filter (fun m => !(failed.any (fun f => f.path == m.path)))

/-- boot.py:225-229: nodes_successed, same filter for nodes with
Node.__eq__, i.e. name equality. -/
def nodesSuccessed (current failed : List Node) : List Node :=
  current.filter (fun n => !(failed.any (fun f => f.name == n.name)))

/-! ### Node queue computation (NodesManager.init_nodes, nodes.py:286-305) -/

/-- Queue computation of init_nodes: with a previous snapshot, install =
current minus previous and remove = previous minus current, both by
name, with setup_exists (repairExisting) false; with no previous
snapshot every current node is queued for install with setup_exists
true.  Returns (install queue, remove queue, setup_exists). -/
def initNodeQueues (current prev : List Node) : List Node × List Node × Bool :=
  if prev = [] then (current, [], true)
  else
    (current.filter (fun n => !(nodeMem n prev)),
     prev.filter (fun n => !(nodeMem n current)),
     false)

inductive NodeEvent
  | install (n : Node) (setupExists : Bool)
  | remove (n : Node)
deriving DecidableEq

/-- Execution trace of init_nodes (nodes.py:303-341): nothing happens
when both queues are empty (early return None); otherwise the install
queue is fully processed, then the remove queue. -/
def initNodesEvents (current prev : List Node) : List NodeEvent :=
  if current = [] then []
  else
    let q := initNodeQueues current prev
    if q.1 = [] ∧ q.2.1 = [] then []
    else q.1.map (fun n => NodeEvent.install n q.2.2) ++ (q.2.1).map NodeEvent.remove

/-! ### Spec-side characterization of the model queues, used to state
claims about init_models. -/

def actioned (prev : List Model) (c : Model) : Bool :=
  match dictLast prev c.url with
  | some pm => !(pm.path == c.path)
  | none => true

def moveSpec (prev cs : List Model) : List (Model × Model) :=
  cs.filterMap (fun c =>
    match dictLast prev c.url with
    | some pm => if pm.path = c.path then none else some (pm, c)
    | none => none)

def downloadSpec (prev cs : List Model) : List Model :=
  cs.filter (fun c => (dictLast prev c.url).isNone)

def removeSpec (current ps : List Model) : List Model :=
  ps.filter (fun p => !(current.any (fun c => c.url == p.url)))

/-- Statement of claim C2, literally: per desired model, a move is
queued exactly when its URL appears in the achieved snapshot at a
different resolved path, a download exactly when its URL appears
nowhere in achieved, no action when it appears at the same path; an
achieved model is queued for removal exactly when its URL matches no
desired model. -/
abbrev modelQueueClaim (desired achieved : List Model) : Prop :=
  (∀ m ∈ desired,
      ((∃ a ∈ achieved, a.url = m.url ∧ a.path ≠ m.path) ↔
        (∃ a ∈ achieved, a.url = m.url ∧ a.path ≠ m.path ∧
          (a, m) ∈ (initModelQueues desired achieved).moveQueue))
    ∧ ((∀ a ∈ achieved, a.url ≠ m.url) ↔
        m ∈ (initModelQueues desired achieved).downloadQueue)
    ∧ ((∃ a ∈ achieved, a.url = m.url ∧ a.path = m.path) →
        (∀ t ∈ (initModelQueues desired achieved).moveQueue, t.2 ≠ m) ∧
        m ∉ (initModelQueues desired achieved).downloadQueue))
  ∧ (∀ a ∈ achieved,
      (∀ m ∈ desired, m.url ≠ a.url) ↔ a ∈ (initModelQueues desired achieved).removeQueue)

/-! ### Model filesystem lifecycle (Model.purge_redundancy and
Model.is_exists, models.py:24-57)

The on-disk state relevant to one model entry: the huggingface cache
directory dir/.cache, the aria2 interruption marker path + ".aria2",
and the destination file itself.  purge_redundancy runs from
__post_init__, so every freshly constructed Model has already executed
it by the time is_exists is consulted. -/

structure ModelFilesystem where
  hfCacheExists : Bool
  aria2MarkerExists : Bool
  destExists : Bool
deriving DecidableEq

def purgeRedundancy (fs : ModelFilesystem) : ModelFilesystem :=
  let fs1 : ModelFilesystem := { fs with hfCacheExists := false }
  if fs1.aria2MarkerExists then
    { fs1 with aria2MarkerExists := false, destExists := false }
  else fs1

def modelIsExists (fs : ModelFilesystem) : Bool := fs.destExists

/-- Existence probe over the model lifecycle: construction runs
purge_redundancy, then is_exists reports presence of the destination.
Returns (reported existence, resulting filesystem state). -/
def modelProbe (fs : ModelFilesystem) : Bool × ModelFilesystem :=
  let fs1 := purgeRedundancy fs
  (modelIsExists fs1, fs1)

/-! ### Node existence probe (Node.is_exists, nodes.py:63-78) -/

inductive NodePathKind
  | missing
  | file
  | dir (validGit : Bool)
  | special
deriving DecidableEq

/-- Node.is_exists: a missing path is Absent; a regular file at the
install path is deleted and reported Absent; a directory that is not a
valid git checkout is deleted and reported Absent when the source is
git; any other existing non-file non-directory path is reported Absent
without deletion.  Returns (reported existence, resulting path state). -/
def nodeIsExists (source : NodeSource) (st : NodePathKind) : Bool × NodePathKind :=
  match st with
  | .missing => (false, .missing)
  | .file => (false, .missing)
  | .dir v => if source = .git ∧ v = false then (false, .missing) else (true, .dir v)
  | .special => (false, .special)

/-! ### Registry install output scanning (Node._check_registry_install,
nodes.py:103-139)

The Python function scans stdout with the regex ERROR:(?P<msg>.+) and,
failing that, with 1\/1\s\[(?P<result>.+?)\]\s(?P<msg>.+).  Both scans
are modelled on the character list of the captured stdout; dot matches
any character except a newline, \s is modelled by the ASCII whitespace
characters recognised by str.strip. -/

def pyWs (c : Char) : Bool :=
  (c == ' ') || (c == '\t') || (c == '\n') || (c == '\r') ||
  (c == '\x0B') || (c == '\x0C')

def pyStrip (cs : List Char) : List Char :=
  ((cs.dropWhile pyWs).reverse.dropWhile pyWs).reverse

/-- Substring containment, modelling the Python `in` operator on str. -/
def listContains (pat : List Char) : List Char → Bool
  | [] => pat.isEmpty
  | c :: rest => pat.isPrefixOf (c :: rest) || listContains pat rest

/-- Leftmost match of ERROR:(?P<msg>.+): first occurrence of "ERROR:"
followed by at least one non-newline character.  Returns the matched
message (the rest of that line) and the remaining input after the
match. -/
def findErrorMatch : List Char → Option (List Char × List Char)
  | [] => none
  | c :: rest =>
    let cs := c :: rest
    if "ERROR:".data.isPrefixOf cs then
      let after := cs.drop 6
      let msg := after.takeWhile (fun x => x ≠ '\n')
      if msg.isEmpty then findErrorMatch rest
      else some (msg, after.drop msg.length)
    else findErrorMatch rest

/-- Python str.splitlines restricted to the newline character: no entry
for a trailing newline, and the empty string yields no lines. -/
def splitOnNl : List Char → List (List Char)
  | [] => [[]]
  | c :: rest =>
    let r := splitOnNl rest
    if c = '\n' then [] :: r
    else
      match r with
      | [] => [[c]]
      | h :: t => (c :: h) :: t

def pySplitlines (cs : List Char) : List (List Char) :=
  if cs.isEmpty then []
  else
    let parts := splitOnNl cs
    if parts.getLast? = some [] then parts.dropLast else parts

/-- After `\s` at least one further non-newline character must follow,
modelling the tail \s(?P<msg>.+) of the result-marker regex. -/
def wsThenContent : List Char → Bool
  | w :: c :: _ => pyWs w && c ≠ '\n'
  | _ => false

/-- Lazy (?P<result>.+?)\]\s(?P<msg>.+) with backtracking: consume
non-newline characters until a closing bracket whose continuation
matches; fail at a newline. -/
def lazyResult : List Char → List Char → Option String
  | [], _ => none
  | c :: rest, acc =>
    if c = '\n' then none
    else if c = ']' ∧ acc ≠ [] ∧ wsThenContent rest then some (String.mk acc.reverse)
    else lazyResult rest (c :: acc)

def matchResultAt : List Char → Option String
  | '1' :: '/' :: '1' :: w :: '[' :: rest =>
    if pyWs w then lazyResult rest [] else none
  | _ => none

def findResultMarker : List Char → Option String
  | [] => none
  | c :: rest =>
    match matchResultAt (c :: rest) with
    | some r => some r
    | none => findResultMarker rest

inductive RegistryResult
  | fail (msg : String)
  | success
  | noop (marker : String)
deriving DecidableEq

def genericInstallErr : List Char := "An error occurred while installing".data

/-- Node._check_registry_install: scan for an ERROR marker first (the
generic message is replaced by the first non-blank following line —
raising IndexError when no such line exists), then for the structured
1/1 [RESULT] marker; INSTALLED is success, SKIP and ENABLED are no-ops,
anything else is an unparseable-result failure. -/
def checkRegistryInstall (stdout : String) : Except String RegistryResult :=
  let cs := stdout.data
  match findErrorMatch cs with
  | some (msgRaw, rest) =>
    let errorMsg := pyStrip msgRaw
    if listContains genericInstallErr errorMsg then
      match pySplitlines (pyStrip rest) with
      | [] => Except.error "IndexError"
      | l0 :: _ =>
        let nextLine := pyStrip l0
        Except.ok (.fail (String.mk (if nextLine.isEmpty then errorMsg else nextLine)))
    else Except.ok (.fail (String.mk errorMsg))
  | none =>
    match findResultMarker cs with
    | some r =>
      if r = "INSTALLED" then Except.ok .success
      else if r = "SKIP" then Except.ok (.noop "SKIP")
      else if r = "ENABLED" then Except.ok (.noop "ENABLED")
      else Except.ok (.fail "Failed to parse installation result")
    | none => Except.ok (.fail "Failed to parse installation result")

/-! ### Download retry loop (Downloader.download, download.py:63-112)

The outcome of attempt i is supplied by an oracle: none is a completed
transfer, some msg is the message of the exception raised during that
attempt.  The model returns the boolean result, the number of attempts
made and the list of sleep durations taken between attempts. -/

def authRejected (msg : String) : Bool :=
  listContains "authorization failed".data (msg.data.map Char.toLower)

def downloadGo (res : Nat → Option String) (interval : Nat) (i : Nat) :
    Nat → Bool × Nat × List Nat
  | 0 => (false, i, [])
  | r + 1 =>
    match res i with
    | none => (true, i + 1, [])
    | some msg =>
      if authRejected msg then (false, i + 1, [])
      else if r = 0 then (false, i + 1, [])
      else
        let t := downloadGo res interval (i + 1) r
        (t.1, t.2.1, interval :: t.2.2)

def download (res : Nat → Option String) (maxRetries interval : Nat) :
    Bool × Nat × List Nat :=
  downloadGo res interval 0 maxRetries

/-! ## Helper lemmas -/

theorem any_path_eq (kept : List Model) (m : Model) :
    kept.any (fun k => k.path == m.path) = true ↔ ∃ k ∈ kept, k.path = m.path := by
  simp [List.any_eq_true]

theorem loadModelsGo_fst (cfg : List Model) :
    ∀ kept : List Model,
      (loadModelsGo kept cfg).1 =
        kept ++ specFirstOcc
          (cfg.filter (fun m => !(kept.any (fun k => k.path == m.path)))) := by
  induction cfg with
  | nil => intro kept; simp [loadModelsGo, specFirstOcc]
  | cons m rest ih =>
    intro kept
    by_cases h : ∃ k ∈ kept, k.path = m.path
    · have hany : kept.any (fun k => k.path == m.path) = true := (any_path_eq kept m).mpr h
      simp only [loadModelsGo, if_pos h, List.filter_cons, hany, Bool.not_true,
        Bool.false_eq_true, if_false]
      exact ih kept
    · have hany : kept.any (fun k => k.path == m.path) = false := by
        rcases Bool.eq_false_or_eq_true (kept.any (fun k => k.path == m.path)) with ht | hf
        · exact absurd ((any_path_eq kept m).mp ht) h
        · exact hf
      have hfilter :
          rest.filter (fun x => !((kept ++ [m]).any (fun k => k.path == x.path))) =
            (rest.filter (fun x => !(kept.any (fun k => k.path == x.path)))).filter
              (fun x => !(x.path == m.path)) := by
        rw [List.filter_filter]
        apply List.filter_congr
        intro x _
        simp only [List.any_append, List.any_cons, List.any_nil, Bool.or_false,
          Bool.not_or]
        rw [Bool.and_comm]
        have : (m.path == x.path) = (x.path == m.path) := by
          rcases eq_or_ne m.path x.path with he | hne
          · simp [he]
          · simp [hne, Ne.symm hne]
        rw [this]
      simp only [loadModelsGo, if_neg h, List.filter_cons, hany, Bool.not_false, if_pos]
      rw [ih (kept ++ [m]), specFirstOcc, hfilter]
      simp

theorem loadModelsGo_snd (cfg : List Model) :
    ∀ kept prior : List Model,
      (∀ x : Model, (∃ k ∈ kept, k.path = x.path) ↔ (∃ p ∈ prior, p.path = x.path)) →
      (loadModelsGo kept cfg).2 = specDupsGo prior cfg := by
  induction cfg with
  | nil => intro kept prior _; simp [loadModelsGo, specDupsGo]
  | cons m rest ih =>
    intro kept prior hiff
    by_cases h : ∃ k ∈ kept, k.path = m.path
    · have h' : ∃ p ∈ prior, p.path = m.path := (hiff m).mp h
      simp only [loadModelsGo, specDupsGo, if_pos h, if_pos h']
      have hnext : ∀ x : Model,
          (∃ k ∈ kept, k.path = x.path) ↔ (∃ p ∈ prior ++ [m], p.path = x.path) := by
        intro x
        constructor
        · rintro hx
          rcases (hiff x).mp hx with ⟨p, hp, hpx⟩
          exact ⟨p, List.mem_append_left _ hp, hpx⟩
        · rintro ⟨p, hp, hpx⟩
          rcases List.mem_append.mp hp with hp | hp
          · exact (hiff x).mpr ⟨p, hp, hpx⟩
          · rcases List.mem_singleton.mp hp with rfl
            rcases h with ⟨k, hk, hkm⟩
            exact ⟨k, hk, by rw [hkm, hpx]⟩
      simp [ih kept (prior ++ [m]) hnext]
    · have h' : ¬ ∃ p ∈ prior, p.path = m.path := fun hx => h ((hiff m).mpr hx)
      simp only [loadModelsGo, specDupsGo, if_neg h, if_neg h']
      apply ih (kept ++ [m]) (prior ++ [m])
      intro x
      constructor
      · rintro ⟨k, hk, hkx⟩
        rcases List.mem_append.mp hk with hk | hk
        · rcases (hiff x).mp ⟨k, hk, hkx⟩ with ⟨p, hp, hpx⟩
          exact ⟨p, List.mem_append_left _ hp, hpx⟩
        · rcases List.mem_singleton.mp hk with rfl
          exact ⟨k, List.mem_append_right _ (List.mem_singleton_self k), hkx⟩
      · rintro ⟨p, hp, hpx⟩
        rcases List.mem_append.mp hp with hp | hp
        · rcases (hiff x).mpr ⟨p, hp, hpx⟩ with ⟨k, hk, hkx⟩
          exact ⟨k, List.mem_append_left _ hk, hkx⟩
        · rcases List.mem_singleton.mp hp with rfl
          exact ⟨p, List.mem_append_right _ (List.mem_singleton_self p), hpx⟩

theorem mem_of_getLast?_eq_some {α : Type} {l : List α} {a : α}
    (h : l.getLast? = some a) : a ∈ l := by
  have hm : a ∈ l.getLast? := h
  obtain ⟨hne, heq⟩ := List.mem_getLast?_eq_getLast hm
  rw [heq]
  exact List.getLast_mem hne

theorem filter_url_self {ms : List Model} (h : (ms.map Model.url).Nodup) :
    ∀ m ∈ ms, ms.filter (fun x => x.url == m.url) = [m] := by
  induction ms with
  | nil => simp
  | cons a t ih =>
    simp only [List.map_cons, List.nodup_cons] at h
    obtain ⟨hnotin, hnd⟩ := h
    intro m hm
    rcases List.mem_cons.mp hm with rfl | hmt
    · rw [List.filter_cons]
      have hself : (m.url == m.url) = true := by simp
      rw [if_pos hself]
      have ht : t.filter (fun x => x.url == m.url) = [] := by
        apply List.filter_eq_nil_iff.mpr
        intro x hx hurl
        rw [beq_iff_eq] at hurl
        exact hnotin (hurl ▸ List.mem_map_of_mem Model.url hx)
      rw [ht]
    · have hne : ¬ (a.url == m.url) = true := by
        rw [beq_iff_eq]
        intro he
        exact hnotin (he ▸ List.mem_map_of_mem Model.url hmt)
      rw [List.filter_cons, if_neg hne]
      exact ih hnd m hmt

theorem dictLast_eq_self {ms : List Model} (h : (ms.map Model.url).Nodup)
    {m : Model} (hm : m ∈ ms) : dictLast ms m.url = some m := by
  unfold dictLast
  rw [filter_url_self h m hm]
  rfl

theorem dictLast_none_iff (ms : List Model) (u : String) :
    dictLast ms u = none ↔ ∀ a ∈ ms, a.url ≠ u := by
  unfold dictLast
  rw [List.getLast?_eq_none_iff, List.filter_eq_nil_iff]
  constructor
  · intro h a ha hu
    exact h a ha (by simp [hu])
  · intro h a ha hb
    exact h a ha (by simpa using hb)

theorem dictLast_mem {ms : List Model} {u : String} {a : Model}
    (h : dictLast ms u = some a) : a ∈ ms ∧ a.url = u := by
  unfold dictLast at h
  have hmem := List.mem_filter.mp (mem_of_getLast?_eq_some h)
  exact ⟨hmem.1, by simpa using hmem.2⟩

theorem mem_moveSpec {prev cs : List Model} {t : Model × Model} :
    t ∈ moveSpec prev cs ↔
      t.2 ∈ cs ∧ dictLast prev t.2.url = some t.1 ∧ t.1.path ≠ t.2.path := by
  unfold moveSpec
  rw [List.mem_filterMap]
  constructor
  · rintro ⟨c, hc, hf⟩
    cases hd : dictLast prev c.url with
    | none => simp only [hd] at hf; cases hf
    | some pm =>
      simp only [hd] at hf
      by_cases hp : pm.path = c.path
      · rw [if_pos hp] at hf; cases hf
      · rw [if_neg hp] at hf
        have ht : (pm, c) = t := Option.some.inj hf
        subst ht
        exact ⟨hc, hd, hp⟩
  · rintro ⟨h2, hd, hp⟩
    refine ⟨t.2, h2, ?_⟩
    simp only [hd]
    rw [if_neg hp]

theorem loopCurrent_eq (prev : List Model) :
    ∀ (cs : List Model) (pr : List String),
      (∀ c ∈ cs, c.url ∉ pr) → (cs.map Model.url).Nodup →
      loopCurrent prev cs pr =
        (moveSpec prev cs, downloadSpec prev cs,
         ((cs.filter (actioned prev)).map Model.url).reverse ++ pr) := by
  intro cs
  induction cs with
  | nil => intro pr _ _; simp [loopCurrent, moveSpec, downloadSpec]
  | cons c rest ih =>
    intro pr hpr hnd
    have hc : c.url ∉ pr := hpr c (List.mem_cons_self c rest)
    simp only [List.map_cons, List.nodup_cons] at hnd
    obtain ⟨hcu, hndr⟩ := hnd
    have hrest : ∀ x ∈ rest, x.url ∉ (c.url :: pr) := by
      intro x hx hmem
      rcases List.mem_cons.mp hmem with he | hmem
      · exact hcu (he ▸ List.mem_map_of_mem Model.url hx)
      · exact hpr x (List.mem_cons_of_mem c hx) hmem
    cases hd : dictLast prev c.url with
    | some pm =>
      by_cases hp : pm.path = c.path
      · have hrec := ih pr (fun x hx => hpr x (List.mem_cons_of_mem c hx)) hndr
        simp only [loopCurrent, if_neg hc, hd, if_pos hp, hrec]
        simp [moveSpec, downloadSpec, List.filterMap_cons, List.filter_cons, hd, hp,
          actioned]
      · have hrec := ih (c.url :: pr) hrest hndr
        simp only [loopCurrent, if_neg hc, hd, if_neg hp, hrec]
        simp only [moveSpec, downloadSpec, List.filterMap_cons, List.filter_cons, hd,
          if_neg hp, actioned]
        have hact : (!(pm.path == c.path)) = true := by simp [hp]
        simp [hact, List.filter_cons, actioned, hd]
    | none =>
      have hrec := ih (c.url :: pr) hrest hndr
      simp only [loopCurrent, if_neg hc, hd, hrec]
      simp only [moveSpec, downloadSpec, List.filterMap_cons, List.filter_cons, hd,
        actioned]
      simp [List.filter_cons, actioned, hd]

theorem loopPrev_eq (current : List Model) :
    ∀ (ps : List Model) (pr : List String),
      (ps.map Model.url).Nodup →
      (∀ u ∈ pr, (∃ c ∈ current, c.url = u) ∨ u ∉ ps.map Model.url) →
      loopPrev current ps pr = removeSpec current ps := by
  intro ps
  induction ps with
  | nil => intro pr _ _; simp [loopPrev, removeSpec]
  | cons p rest ih =>
    intro pr hnd hinv
    simp only [List.map_cons, List.nodup_cons] at hnd
    obtain ⟨hpu, hndr⟩ := hnd
    have hinv' : ∀ u ∈ pr, (∃ c ∈ current, c.url = u) ∨ u ∉ rest.map Model.url := by
      intro u hu
      rcases hinv u hu with hcur | hnot
      · exact Or.inl hcur
      · exact Or.inr (fun hmem => hnot (List.mem_cons_of_mem _ hmem))
    by_cases hpr : p.url ∈ pr
    · have hcur : ∃ c ∈ current, c.url = p.url := by
        rcases hinv p.url hpr with hcur | hnot
        · exact hcur
        · exact absurd (by simp : p.url ∈ (p :: rest).map Model.url) hnot
      have hany : current.any (fun c => c.url == p.url) = true := by
        rcases hcur with ⟨c, hc, hcu⟩
        exact List.any_eq_true.mpr ⟨c, hc, by simp [hcu]⟩
      simp only [loopPrev, if_pos hpr, removeSpec, List.filter_cons, hany,
        Bool.not_true, Bool.false_eq_true, if_false]
      exact ih pr hndr hinv'
    · by_cases hcur : ∃ c ∈ current, c.url = p.url
      · have hany : current.any (fun c => c.url == p.url) = true := by
          rcases hcur with ⟨c, hc, hcu⟩
          exact List.any_eq_true.mpr ⟨c, hc, by simp [hcu]⟩
        simp only [loopPrev, if_neg hpr, if_pos hcur, removeSpec, List.filter_cons,
          hany, Bool.not_true, Bool.false_eq_true, if_false]
        exact ih pr hndr hinv'
      · have hany : current.any (fun c => c.url == p.url) = false := by
          rcases Bool.eq_false_or_eq_true (current.any (fun c => c.url == p.url))
            with ht | hf
          · rcases List.any_eq_true.mp ht with ⟨c, hc, hcu⟩
            exact absurd ⟨c, hc, by simpa using hcu⟩ hcur
          · exact hf
        simp only [loopPrev, if_neg hpr, if_neg hcur, removeSpec, List.filter_cons,
          hany, Bool.not_false, if_pos]
        have hnext : ∀ u ∈ (p.url :: pr),
            (∃ c ∈ current, c.url = u) ∨ u ∉ rest.map Model.url := by
          intro u hu
          rcases List.mem_cons.mp hu with rfl | hu
          · exact Or.inr hpu
          · exact hinv' u hu
        rw [ih (p.url :: pr) hndr hnext]
        rfl

theorem initModelQueues_eq {current prev : List Model}
    (hd : (current.map Model.url).Nodup) (ha : (prev.map Model.url).Nodup)
    (hne : prev ≠ []) :
    initModelQueues current prev =
      ⟨moveSpec prev current, downloadSpec prev current, removeSpec current prev⟩ := by
  unfold initModelQueues
  rw [if_neg hne]
  rw [loopCurrent_eq prev current [] (by simp) hd]
  simp only
  rw [loopPrev_eq current prev _ ha ?_]
  intro u hu
  left
  rw [List.append_nil] at hu
  rcases List.mem_reverse.mp hu with hu
  rcases List.mem_map.mp hu with ⟨x, hx, rfl⟩
  exact ⟨x, (List.mem_filter.mp hx).1, rfl⟩

/-! ## Claim theorems -/

/-- C4 counterexample: the claim that within one snapshot the dedup of
ModelsManager._load_config returns the retained first occurrences in
insertion order is false: the Python loop accumulates the entries in a
hash set and returns `list(models)`, an enumeration that depends only on
the set content, and no content-determined enumeration can return the
insertion-ordered first occurrences for every input, as the two
two-element configs with swapped insertion order show. -/
theorem load_config_order_not_preserved :
    ¬ ∃ f : List Model → List Model,
      (∀ c₁ c₂ : List Model,
        (loadModelsContent c₁).1.Perm (loadModelsContent c₂).1 → f c₁ = f c₂)
      ∧ (∀ cfg : List Model, f cfg = (loadModelsContent cfg).1) := by
  rintro ⟨f, hinv, hord⟩
  have h1 : f [⟨"u1", "m", "a"⟩, ⟨"u2", "m", "b"⟩] = [⟨"u1", "m", "a"⟩, ⟨"u2", "m", "b"⟩] := by
    rw [hord]; decide
  have h2 : f [⟨"u2", "m", "b"⟩, ⟨"u1", "m", "a"⟩] = [⟨"u2", "m", "b"⟩, ⟨"u1", "m", "a"⟩] := by
    rw [hord]; decide
  have hp : (loadModelsContent [⟨"u1", "m", "a"⟩, ⟨"u2", "m", "b"⟩]).1.Perm
      (loadModelsContent [⟨"u2", "m", "b"⟩, ⟨"u1", "m", "a"⟩]).1 := by decide
  have heq := hinv _ _ hp
  rw [h1, h2] at heq
  exact absurd heq (by decide)

/-- C4 amended: ModelsManager._load_config keeps exactly the first
occurrence of each resolved destination path, and drops and logs every
later duplicate (the dropped entries are exactly those with a strictly
earlier same-path entry, in encounter order); only the final enumeration
order of the retained set is unspecified. -/
theorem load_config_dedup_first_wins (cfg : List Model) :
    (loadModelsContent cfg).1 = specFirstOcc cfg
    ∧ (loadModelsContent cfg).2 = specDups cfg := by
  constructor
  · have h := loadModelsGo_fst cfg []
    simpa [loadModelsContent] using h
  · exact loadModelsGo_snd cfg [] [] (by simp)

/-- C4 amended witness: a config with one duplicated path keeps the two
first occurrences and logs the one duplicate. -/
theorem load_config_dedup_first_wins_witness :
    (loadModelsContent [⟨"u1", "m", "a"⟩, ⟨"u2", "m", "a"⟩, ⟨"u3", "m", "b"⟩]).1
      = specFirstOcc [⟨"u1", "m", "a"⟩, ⟨"u2", "m", "a"⟩, ⟨"u3", "m", "b"⟩]
    ∧ (loadModelsContent [⟨"u1", "m", "a"⟩, ⟨"u2", "m", "a"⟩, ⟨"u3", "m", "b"⟩]).2
      = specDups [⟨"u1", "m", "a"⟩, ⟨"u2", "m", "a"⟩, ⟨"u3", "m", "b"⟩] :=
  load_config_dedup_first_wins [⟨"u1", "m", "a"⟩, ⟨"u2", "m", "a"⟩, ⟨"u3", "m", "b"⟩]

/-- C1: a model whose Move action failed is NOT excluded from the
persisted snapshot.  With desired = one model at the new path and
achieved = the same URL at the old path, a failing move records the
achieved-side model (old path) in the failed list; boot.startup filters
the desired config against the failed list by resolved-path equality, so
the desired model (new path) survives and is persisted, and it is not
retried on the next run. -/
theorem persisted_snapshot_keeps_failed_move :
    initModels [⟨"u1", "checkpoints", "b.safetensors"⟩]
        [⟨"u1", "checkpoints", "a.safetensors"⟩]
        (fun _ _ => false) (fun _ => none) (fun _ => none)
      = some ([], [], [], [⟨"u1", "checkpoints", "a.safetensors"⟩])
    ∧ modelsSuccessed [⟨"u1", "checkpoints", "b.safetensors"⟩]
        [⟨"u1", "checkpoints", "a.safetensors"⟩]
      = [⟨"u1", "checkpoints", "b.safetensors"⟩] := by
  constructor
  · decide
  · decide

/-- C5: init_models returns a 4-tuple (downloaded, removed, moved,
failed) with no separate existed list: a model whose download step
reports "already exists" (oracle result none) is appended to the
downloaded list.  The caller in boot.startup unpacks five values from
this result, which cannot succeed. -/
theorem init_models_result_is_four_lists :
    initModels [⟨"u1", "checkpoints", "a.safetensors"⟩] []
        (fun _ _ => true) (fun _ => none) (fun _ => none)
      = some ([⟨"u1", "checkpoints", "a.safetensors"⟩], [], [], []) := by
  decide

/-- C7: the registry install result scanner raises IndexError instead of
returning a failure when the generic "An error occurred while
installing" marker is the last non-blank content of the captured
stdout, because it indexes the first following line of an empty list. -/
theorem registry_scan_raises_on_generic_error_last_line :
    checkRegistryInstall "ERROR: An error occurred while installing foo"
      = Except.error "IndexError" := rfl

/-- C9: a destination file accompanied by its aria2 interruption marker
is repaired during probing: both the marker and the partial destination
file are deleted and the model is reported Absent. -/
theorem model_probe_interrupted_transfer (fs : ModelFilesystem)
    (h : fs.aria2MarkerExists = true) :
    modelProbe fs = (false, ⟨false, false, false⟩) := by
  cases fs
  simp only at h
  simp [modelProbe, purgeRedundancy, modelIsExists, h]

/-- C9 witness. -/
theorem model_probe_interrupted_transfer_witness :
    modelProbe ⟨true, true, true⟩ = (false, ⟨false, false, false⟩) :=
  model_probe_interrupted_transfer ⟨true, true, true⟩ rfl

/-- C10: for both node sources, a regular file at the install path is
deleted by the existence probe and the node is reported Absent; a file
at the install path therefore never counts as Installed. -/
theorem node_probe_deletes_file_at_path :
    nodeIsExists .registry .file = (false, .missing)
    ∧ nodeIsExists .git .file = (false, .missing) := ⟨rfl, rfl⟩

theorem downloadGo_auth (res : Nat → Option String) (interval : Nat) :
    ∀ t i r : Nat, t < r →
      (∀ k, k < t → ∃ m, res (i + k) = some m ∧ authRejected m = false) →
      (∃ msg, res (i + t) = some msg ∧ authRejected msg = true) →
      downloadGo res interval i r = (false, i + t + 1, List.replicate t interval) := by
  intro t
  induction t with
  | zero =>
    rintro i r hlt _ ⟨msg, hres, hauth⟩
    obtain ⟨r', rfl⟩ : ∃ r', r = r' + 1 := ⟨r - 1, by omega⟩
    rw [Nat.add_zero] at hres
    simp [downloadGo, hres, hauth]
  | succ t ih =>
    rintro i r hlt hpre hauth
    obtain ⟨r', rfl⟩ : ∃ r', r = r' + 1 := ⟨r - 1, by omega⟩
    obtain ⟨m0, hres0, hauth0⟩ := hpre 0 (Nat.succ_pos t)
    rw [Nat.add_zero] at hres0
    have hr' : ¬ r' = 0 := by omega
    have hrec := ih (i + 1) r' (by omega)
      (fun k hk => by
        obtain ⟨m, hm, ha⟩ := hpre (k + 1) (by omega)
        exact ⟨m, by rw [show i + 1 + k = i + (k + 1) by omega]; exact hm, ha⟩)
      (by
        obtain ⟨msg, hm, ha⟩ := hauth
        exact ⟨msg, by rw [show i + 1 + t = i + (t + 1) by omega]; exact hm, ha⟩)
    simp only [downloadGo, hres0, hauth0, if_neg hr', hrec, List.replicate_succ]
    simp only [Bool.false_eq_true, if_false]
    refine congrArg (Prod.mk false) ?_
    refine congrArg₂ Prod.mk (by omega) rfl

theorem downloadGo_exhaust (res : Nat → Option String) (interval : Nat) :
    ∀ r i : Nat,
      (∀ k, k < r → ∃ m, res (i + k) = some m ∧ authRejected m = false) →
      downloadGo res interval i r = (false, i + r, List.replicate (r - 1) interval) := by
  intro r
  induction r with
  | zero => intro i _; simp [downloadGo]
  | succ r' ih =>
    intro i hall
    obtain ⟨m0, h0, ha0⟩ := hall 0 (Nat.succ_pos r')
    rw [Nat.add_zero] at h0
    by_cases hr : r' = 0
    · subst hr
      simp [downloadGo, h0, ha0]
    · have hrec := ih (i + 1)
        (fun k hk => by
          obtain ⟨m, hm, ha⟩ := hall (k + 1) (by omega)
          exact ⟨m, by rw [show i + 1 + k = i + (k + 1) by omega]; exact hm, ha⟩)
      simp only [downloadGo, h0, ha0, Bool.false_eq_true, if_false, if_neg hr, hrec]
      refine congrArg (Prod.mk false) (congrArg₂ Prod.mk (by omega) ?_)
      obtain ⟨r'', rfl⟩ : ∃ r'', r' = r'' + 1 := ⟨r' - 1, by omega⟩
      simp [List.replicate_succ]

/-- C8: in Downloader.download an authentication rejection at any
attempt returns failure immediately, with no further attempt against
the URL; any other error is retried with a fixed sleep interval between
attempts, and exhausting the bounded attempt count returns failure.
The result triple is (outcome, number of attempts made, sleeps taken
between attempts). -/
theorem download_retry_spec (res : Nat → Option String) (maxRetries interval : Nat) :
    (∀ t, t < maxRetries →
      (∀ k, k < t → ∃ m, res k = some m ∧ authRejected m = false) →
      (∃ msg, res t = some msg ∧ authRejected msg = true) →
      download res maxRetries interval = (false, t + 1, List.replicate t interval))
    ∧ ((∀ k, k < maxRetries → ∃ m, res k = some m ∧ authRejected m = false) →
      download res maxRetries interval
        = (false, maxRetries, List.replicate (maxRetries - 1) interval)) := by
  constructor
  · intro t ht hpre hauth
    have h := downloadGo_auth res interval t 0 maxRetries ht
      (fun k hk => by simpa using hpre k hk) (by simpa using hauth)
    simpa [download] using h
  · intro hall
    have h := downloadGo_exhaust res interval maxRetries 0
      (fun k hk => by simpa using hall k hk)
    simpa [download] using h

/-- C2 counterexample: the per-model classification fails when two
desired models share a URL.  With desired = two models at distinct paths
under one URL and achieved = that URL at a third path, the code queues a
move only for the first desired model; the second has its URL in the
achieved snapshot at a different resolved path, yet no move is queued
for it, because the URL is already marked processed. -/
theorem model_queue_claim_fails_on_duplicate_urls :
    ¬ modelQueueClaim [⟨"u1", "m", "b"⟩, ⟨"u1", "m", "c"⟩] [⟨"u1", "m", "a"⟩] := by
  decide

/-- C2 amended: for deduplicated snapshots in which no two models of one
snapshot share a URL, init_models classifies each desired model by URL
exactly as claimed: a move is queued precisely for a URL present in the
achieved snapshot at a different resolved path, a download precisely for
a URL absent from it, no action for a same-path match, and an achieved
model is queued for removal precisely when its URL matches no desired
model. -/
theorem initModels_queue_classification (desired achieved : List Model)
    (hd : (desired.map Model.url).Nodup) (ha : (achieved.map Model.url).Nodup) :
    modelQueueClaim desired achieved := by
  by_cases hne : achieved = []
  · subst hne
    constructor
    · intro m hm
      refine ⟨by simp, ?_, by simp⟩
      simp only [initModelQueues, if_pos rfl]
      simpa using hm
    · intro a ha
      simp at ha
  · have hq := initModelQueues_eq hd ha hne
    constructor
    · intro m hm
      refine ⟨?_, ?_, ?_⟩
      · constructor
        · rintro ⟨a, haa, hurl, hpath⟩
          have hda : dictLast achieved m.url = some a := by
            have h := dictLast_eq_self ha haa
            rwa [hurl] at h
          refine ⟨a, haa, hurl, hpath, ?_⟩
          rw [hq]
          exact mem_moveSpec.mpr ⟨hm, hda, hpath⟩
        · rintro ⟨a, haa, hurl, hpath, _⟩
          exact ⟨a, haa, hurl, hpath⟩
      · rw [hq]
        constructor
        · intro hall
          have hnone : dictLast achieved m.url = none :=
            (dictLast_none_iff achieved m.url).mpr hall
          exact List.mem_filter.mpr ⟨hm, by simp [downloadSpec, hnone]⟩
        · intro hmem a haa he
          have h2 := (List.mem_filter.mp hmem).2
          rw [Option.isNone_iff_eq_none] at h2
          exact (dictLast_none_iff achieved m.url).mp h2 a haa he
      · rintro ⟨a, haa, hurl, hpath⟩
        have hda : dictLast achieved m.url = some a := by
          have h := dictLast_eq_self ha haa
          rwa [hurl] at h
        rw [hq]
        constructor
        · intro t ht hteq
          have hms := mem_moveSpec.mp ht
          rw [hteq] at hms
          have := hms.2.1
          rw [hda] at this
          have ha1 : t.1 = a := Option.some.inj this.symm
          exact hms.2.2 (by rw [ha1, hpath])
        · intro hmem
          have h2 := (List.mem_filter.mp hmem).2
          rw [Option.isNone_iff_eq_none] at h2
          rw [hda] at h2
          cases h2
    · intro a haa
      rw [hq]
      constructor
      · intro hall
        have hany : desired.any (fun c => c.url == a.url) = false := by
          rcases Bool.eq_false_or_eq_true (desired.any (fun c => c.url == a.url))
            with ht | hf
          · rcases List.any_eq_true.mp ht with ⟨c, hc, hcu⟩
            exact absurd (by simpa using hcu) (hall c hc)
          · exact hf
        exact List.mem_filter.mpr ⟨haa, by simp [removeSpec, hany]⟩
      · intro hmem m hm he
        have h2 := (List.mem_filter.mp hmem).2
        rcases Bool.eq_false_or_eq_true (desired.any (fun c => c.url == a.url))
          with ht | hf
        · simp [removeSpec, ht] at h2
        · have : desired.any (fun c => c.url == a.url) = true :=
            List.any_eq_true.mpr ⟨m, hm, by simp [he]⟩
          rw [this] at hf
          cases hf

/-- C2 witness: with one desired model and the same URL achieved at a
different path, the classification yields exactly a move. -/
theorem initModels_queue_classification_witness :
    modelQueueClaim [⟨"u1", "m", "b"⟩] [⟨"u1", "m", "a"⟩] :=
  initModels_queue_classification [⟨"u1", "m", "b"⟩] [⟨"u1", "m", "a"⟩]
    (by decide) (by decide)

/-- C6 counterexample: reconciliation is not idempotent for a desired
config in which two models share a URL at two distinct paths.  Feeding
the just-achieved output (equal to the desired config) back in queues a
move, because the URL-keyed dict of the previous snapshot retains only
the last entry per URL, which mismatches the first entry by path. -/
theorem reconcile_not_idempotent_on_duplicate_urls :
    (initModelQueues [⟨"u", "m", "f1"⟩, ⟨"u", "m", "f2"⟩]
        [⟨"u", "m", "f1"⟩, ⟨"u", "m", "f2"⟩]).moveQueue ≠ [] := by
  decide

/-- C6 amended: reconciling a desired config against its own
just-achieved output yields zero actions, provided no two models of the
config share a URL: both node queues are empty and all three model
queues are empty. -/
theorem reconcile_idempotent (nodes : List Node) (ms : List Model)
    (hm : (ms.map Model.url).Nodup) :
    (initNodeQueues nodes nodes).1 = [] ∧ (initNodeQueues nodes nodes).2.1 = []
    ∧ initModelQueues ms ms = ⟨[], [], []⟩ := by
  have hnode : (initNodeQueues nodes nodes).1 = [] ∧ (initNodeQueues nodes nodes).2.1 = [] := by
    by_cases h : nodes = []
    · subst h
      exact ⟨rfl, rfl⟩
    · have hfil : nodes.filter (fun n => !(nodeMem n nodes)) = [] := by
        apply List.filter_eq_nil_iff.mpr
        intro n hn hmem
        have : nodeMem n nodes = true :=
          List.any_eq_true.mpr ⟨n, hn, by simp⟩
        rw [this] at hmem
        cases hmem
      unfold initNodeQueues
      rw [if_neg h]
      exact ⟨hfil, hfil⟩
  refine ⟨hnode.1, hnode.2, ?_⟩
  by_cases h : ms = []
  · subst h
    rfl
  · rw [initModelQueues_eq hm hm h]
    have h1 : moveSpec ms ms = [] := by
      apply List.filterMap_eq_nil_iff.mpr
      intro c hc
      simp [dictLast_eq_self hm hc]
    have h2 : downloadSpec ms ms = [] := by
      apply List.filter_eq_nil_iff.mpr
      intro c hc hmem
      rw [dictLast_eq_self hm hc] at hmem
      cases hmem
    have h3 : removeSpec ms ms = [] := by
      apply List.filter_eq_nil_iff.mpr
      intro c hc hmem
      have : ms.any (fun x => x.url == c.url) = true :=
        List.any_eq_true.mpr ⟨c, hc, by simp⟩
      rw [this] at hmem
      cases hmem
    rw [h1, h2, h3]

/-- C6 witness. -/
theorem reconcile_idempotent_witness :
    (initNodeQueues [⟨"nodeA", .registry⟩] [⟨"nodeA", .registry⟩]).1 = []
    ∧ (initNodeQueues [⟨"nodeA", .registry⟩] [⟨"nodeA", .registry⟩]).2.1 = []
    ∧ initModelQueues [⟨"u1", "m", "a"⟩] [⟨"u1", "m", "a"⟩] = ⟨[], [], []⟩ :=
  reconcile_idempotent [⟨"nodeA", .registry⟩] [⟨"u1", "m", "a"⟩] (by decide)

/-- C3: node queue computation and execution order.  With a non-empty
previous snapshot the install queue is exactly the desired nodes whose
name is absent from the achieved snapshot and the remove queue exactly
the achieved nodes whose name is absent from the desired snapshot, with
setup_exists (repairExisting) false; with an empty previous snapshot
every desired node is queued for install with setup_exists true and the
remove queue is empty; when the desired config is non-empty the event
trace is the whole install queue followed by the whole remove queue. -/
theorem initNodes_queue_computation (current prev : List Node) :
    (prev ≠ [] →
      initNodeQueues current prev =
        (current.filter (fun n => !(nodeMem n prev)),
         prev.filter (fun n => !(nodeMem n current)), false))
    ∧ (prev = [] → initNodeQueues current prev = (current, [], true))
    ∧ (current ≠ [] →
      initNodesEvents current prev =
        (initNodeQueues current prev).1.map
            (fun n => NodeEvent.install n (initNodeQueues current prev).2.2)
          ++ ((initNodeQueues current prev).2.1).map NodeEvent.remove) := by
  refine ⟨fun h => by rw [initNodeQueues, if_neg h], fun h => by rw [initNodeQueues, if_pos h], fun h => ?_⟩
  unfold initNodesEvents
  rw [if_neg h]
  by_cases hq : (initNodeQueues current prev).1 = [] ∧ (initNodeQueues current prev).2.1 = []
  · simp [hq.1, hq.2]
  · simp only [if_neg hq]

/-- C3 witness: desired = A, B, C and achieved = B, C, D give install =
A and remove = D, install processed before remove. -/
theorem initNodes_queue_computation_witness :
    initNodeQueues
        [⟨"a", .registry⟩, ⟨"b", .registry⟩, ⟨"c", .registry⟩]
        [⟨"b", .registry⟩, ⟨"c", .registry⟩, ⟨"d", .registry⟩]
      = ([⟨"a", .registry⟩], [⟨"d", .registry⟩], false)
    ∧ initNodesEvents
        [⟨"a", .registry⟩, ⟨"b", .registry⟩, ⟨"c", .registry⟩]
        [⟨"b", .registry⟩, ⟨"c", .registry⟩, ⟨"d", .registry⟩]
      = [NodeEvent.install ⟨"a", .registry⟩ false, NodeEvent.remove ⟨"d", .registry⟩] := by
  constructor
  · have h := (initNodes_queue_computation
      [⟨"a", .registry⟩, ⟨"b", .registry⟩, ⟨"c", .registry⟩]
      [⟨"b", .registry⟩, ⟨"c", .registry⟩, ⟨"d", .registry⟩]).1 (by decide)
    rw [h]
    decide
  · have h := (initNodes_queue_computation
      [⟨"a", .registry⟩, ⟨"b", .registry⟩, ⟨"c", .registry⟩]
      [⟨"b", .registry⟩, ⟨"c", .registry⟩, ⟨"d", .registry⟩]).2.2 (by decide)
    rw [h]
    decide

/-- C8 witness: a transient error on the first attempt followed by an
authorization rejection on the second stops after two attempts with one
fixed-length sleep in between. -/
theorem download_retry_spec_witness :
    download
        (fun k => if k = 0 then some "connect timeout"
                  else some "401 Authorization failed")
        3 2
      = (false, 2, List.replicate 1 2) := by
  refine (download_retry_spec
      (fun k => if k = 0 then some "connect timeout"
                else some "401 Authorization failed") 3 2).1 1 (by decide) ?_ ?_
  · intro k hk
    exact ⟨"connect timeout", by simp [show k = 0 by omega], by decide⟩
  · exact ⟨"401 Authorization failed", by simp, by decide⟩

end ComfyUIDocker
